import Mathlib

/-!
Verification of the Argonodes schema-generalization core (`src/argonodes/`)
against its natural-language specification.

The Python sources are shallowly embedded: JSON values, instance nodes
(`nodes.py`), traversals (`appliers.make_traversal`), the model operations
(`models.py`), the filter engine (`filters.py`) and the path helpers
(`helpers.py`) become Lean data types and functions; Python exceptions
(KeyError, TypeError, ValueError, StopIteration, IndexError) become an
explicit `Except` error type.

Scope notes, stated once here:
* File input/output, pickling, printing and the DeepDiff change log of
  `Model.process_files` are not modelled; per the spec the diff is an
  audit-only artifact.  The merge step itself (`full_traversal.update`)
  is modelled exactly.
* The external "ignore" mark set by `appliers.ignore_node` is not
  modelled: every claim below concerns trees with no ignored node, on
  which the uuid-keyed branch of `appliers.make_traversal` is dead code.
* Python string values, numbers, booleans and the `Root`/`NA` sentinel
  instances are modelled by the closed value type `PyVal`; runtime type
  objects (`type(data)`, the `Root` class) by `PyType`.
-/

deriving instance DecidableEq for Except

/-- Python exceptions that the embedded code can raise. -/
inductive PyErr where
  | keyError
  | typeError
  | valueError
  | stopIteration
  | indexError
  deriving DecidableEq, Repr

/-- Runtime type objects: `type(data)` for JSON-decoded data, plus the
`Root` sentinel class of `nodes.py`. -/
inductive PyType where
  | root      -- class Root
  | noneT     -- NoneType
  | boolT
  | intT
  | strT
  | listT
  | dictT
  deriving DecidableEq, Repr

/-- Python attribute/metadata values: `None`, the `NA` sentinel instance,
scalars, and type objects (a traversal record stores `node.foundType`,
which is a type object, as a value). -/
inductive PyVal where
  | none
  | na
  | bool (b : Bool)
  | int (n : Int)
  | str (s : String)
  | type (t : PyType)
  deriving DecidableEq, Repr

/-! ## helpers.py: REGEX_PATH

`REGEX_PATH = re.compile(r"\[\d+\]")`.  Its two uses are
`REGEX_PATH.sub("[*]", path)` (replace every bracketed integer segment
by the wildcard segment) and `REGEX_PATH.match(fieldName)` (does the
string start with a bracketed integer segment?). -/

/-- `REGEX_PATH.sub("[*]", ·)` on the character list of a path: scan left
to right; at a `[` followed by a nonempty digit run followed by `]`,
emit `[*]` and continue after the match (re.sub takes leftmost,
non-overlapping matches); otherwise copy the character. -/
def genSub : List Char → List Char
  | [] => []
  | c :: rest =>
    if c = '[' ∧ rest.takeWhile Char.isDigit ≠ [] ∧ (rest.dropWhile Char.isDigit).head? = some ']' then
      '[' :: '*' :: ']' :: genSub (rest.dropWhile Char.isDigit).tail
    else
      c :: genSub rest
termination_by l => l.length
decreasing_by
  · simp only [List.length_cons]
    have h1 : (rest.dropWhile Char.isDigit).length ≤ rest.length :=
      (List.dropWhile_sublist Char.isDigit).length_le
    have h2 : (rest.dropWhile Char.isDigit).tail.length = (rest.dropWhile Char.isDigit).length - 1 :=
      List.length_tail _
    omega
  · simp

/-- `REGEX_PATH.sub("[*]", path)` on strings (path generalization). -/
def generalize (s : String) : String := ⟨genSub s.data⟩

/-- `REGEX_PATH.match(s)`: does `s` begin with `[`, one or more digits,
then `]`?  (`re.match` anchors at the start only.) -/
def idxMatch : List Char → Bool
  | '[' :: rest =>
    decide (rest.takeWhile Char.isDigit ≠ []) &&
    ((rest.dropWhile Char.isDigit).head? == some ']')
  | _ => false

/-! ## helpers.py: REGEX_SEARCH

`REGEX_SEARCH = lambda path: re.compile("^" + path.replace("$", r"\$")
.replace(".", r"\.").replace("[", r"\[").replace("]", r"\]")
.replace("*", r".*") + "$")`.

The replace chain escapes `$ . [ ]`, maps `*` to `.*`, and passes every
other character through verbatim.  For pattern strings whose characters
are alphanumerics, `$ . [ ]` or `*` (all the patterns the claims use),
the compiled, both-ends-anchored regex therefore denotes exactly: each
non-`*` character matches itself, and each `*` (compiled to `.*`)
matches an arbitrary, possibly empty, run of characters.  `Tok` and
`reMatch` implement that denotation. -/

inductive Tok where
  | lit (c : Char)
  | star
  deriving DecidableEq, Repr

/-- The token list of the compiled pattern: `*` becomes `.*`, everything
else a literal (escaped or regex-ordinary) character. -/
def searchTokens (pattern : List Char) : List Tok :=
  pattern.map (fun c => if c = '*' then Tok.star else Tok.lit c)

/-- Matching of the anchored compiled regex against a whole string:
`reMatch ts cs` holds iff `cs` is generated by the token list `ts`. -/
def reMatch : List Tok → List Char → Bool
  | [], [] => true
  | [], _ :: _ => false
  | Tok.lit _ :: _, [] => false
  | Tok.lit c :: ts, x :: xs => c = x && reMatch ts xs
  | Tok.star :: ts, [] => reMatch ts []
  | Tok.star :: ts, x :: xs => reMatch ts (x :: xs) || reMatch (Tok.star :: ts) xs
termination_by ts cs => (ts.length, cs.length)

/-- `REGEX_SEARCH(pattern).match(s)` as a Bool (a full-string test, since
the compiled regex is anchored at both ends). -/
def regexSearchMatch (pattern s : String) : Bool :=
  reMatch (searchTokens pattern.data) s.data

/-! ## nodes.py: JSON values and instance nodes

A decoded JSON value (the input contract of the tree builder): nested
dicts, lists and scalars.  Python ints stand in for all JSON numbers
(the claims use none but ints). -/

inductive JSON where
  | null
  | boolV (b : Bool)
  | intV (n : Int)
  | strV (s : String)
  | arr (elems : List JSON)
  | obj (members : List (String × JSON))

/-- `type(data)` for a decoded JSON value.  Never `Root`: that sentinel
is only assigned by `Node.__init__` when the field name is `"$"`. -/
def typeOf : JSON → PyType
  | .null => .noneT
  | .boolV _ => .boolT
  | .intV _ => .intT
  | .strV _ => .strT
  | .arr _ => .listT
  | .obj _ => .dictT

/-- The six mutable semantic-metadata attributes a `Node` carries
(`descriptiveType`, `unique`, `default`, `description`, `choices`,
`regex`), all initialized to `None` by `Node.__init__`. -/
structure MetaBlock where
  descriptiveType : PyVal
  unique : PyVal
  default : PyVal
  description : PyVal
  choices : PyVal
  regex : PyVal
  deriving DecidableEq, Repr

/-- `Node.__init__`'s metadata: every field `None`. -/
def MetaBlock.init : MetaBlock := ⟨.none, .none, .none, .none, .none, .none⟩

/-- `Tree.__init__` overrides `unique`, `default`, `choices`, `regex`
with the `NA` sentinel on the root node. -/
def MetaBlock.treeInit : MetaBlock := ⟨.none, .na, .na, .none, .na, .na⟩

/-- An instance node (`nodes.Node`, built with `filename=None`, so
`path == _path`).  `data` is the raw scalar for leaves and `None`
(here `Option.none`) for dict/list nodes; `children` is the ordered
child list.  The parent back-reference is not stored: paths are
computed at construction, exactly as `_set_path` does. -/
inductive PyNode where
  | mk (fieldName : String) (foundType : PyType) (meta : MetaBlock)
       (data : Option JSON) (path : String) (children : List PyNode)

def PyNode.fieldName : PyNode → String
  | .mk fn _ _ _ _ _ => fn

def PyNode.foundType : PyNode → PyType
  | .mk _ ft _ _ _ _ => ft

def PyNode.meta : PyNode → MetaBlock
  | .mk _ _ m _ _ _ => m

def PyNode.nodeData : PyNode → Option JSON
  | .mk _ _ _ d _ _ => d

def PyNode.path : PyNode → String
  | .mk _ _ _ _ p _ => p

def PyNode.children : PyNode → List PyNode
  | .mk _ _ _ _ _ cs => cs

/-- `_set_path`'s name fragment for a child: `.{fieldName}` unless the
field name matches `REGEX_PATH` at the start (a list-index token). -/
def childName (fieldName : String) : String :=
  if idxMatch fieldName.data then fieldName else "." ++ fieldName

/-- `_set_path`: the root node's path is its field name; a child's path
is the parent's path plus the child's name fragment. -/
def setPath (fieldName : String) (parentPath : Option String) : String :=
  match parentPath with
  | Option.none => fieldName
  | some pp => pp ++ childName fieldName

/-- `Root if self.fieldName == "$" else type(data)`. -/
def foundTypeFor (fieldName : String) (t : PyType) : PyType :=
  if fieldName = "$" then PyType.root else t

mutual

/-- `Node.__init__` (with `process_traversal=False`): set `fieldName`,
`foundType` (`Root` iff the field name is `"$"`, else `type(data)`),
null metadata, compute the path from the parent's path, then `_process`
the value: one `NodeDict` child per dict member, one `NodeList` child
per list element (field name `[index]`), or store the scalar as
`data`. -/
def buildNode : JSON → String → Option String → PyNode
  | .obj members, fieldName, parentPath =>
    .mk fieldName (foundTypeFor fieldName .dictT) .init Option.none
      (setPath fieldName parentPath) (buildObj members (setPath fieldName parentPath))
  | .arr elems, fieldName, parentPath =>
    .mk fieldName (foundTypeFor fieldName .listT) .init Option.none
      (setPath fieldName parentPath) (buildArr elems 0 (setPath fieldName parentPath))
  | d, fieldName, parentPath =>
    .mk fieldName (foundTypeFor fieldName (typeOf d)) .init (some d)
      (setPath fieldName parentPath) []

/-- The `NodeDict` children of a dict node, in member order. -/
def buildObj (members : List (String × JSON)) (parentPath : String) : List PyNode :=
  match members with
  | [] => []
  | (k, v) :: rest => buildNode v k (some parentPath) :: buildObj rest parentPath

/-- The `NodeList` children of a list node: element `i` gets field name
`[i]`. -/
def buildArr (elems : List JSON) (i : Nat) (parentPath : String) : List PyNode :=
  match elems with
  | [] => []
  | v :: rest =>
    buildNode v ("[" ++ toString i ++ "]") (some parentPath) :: buildArr rest (i + 1) parentPath

end

/-- `Tree(data)`: a root `Node` with field name `"$"` and the four
inapplicable metadata fields set to the `NA` sentinel. -/
def buildTree (data : JSON) : PyNode :=
  match buildNode data "$" Option.none with
  | .mk fn ft _ d p cs => .mk fn ft .treeInit d p cs

mutual

/-- `Node.get_paths`: the generalized path of every node of the subtree
(as a list; the Python function returns the set of these strings). -/
def get_paths : PyNode → List String
  | .mk _ _ _ _ p cs => generalize p :: getPathsL cs

def getPathsL : List PyNode → List String
  | [] => []
  | n :: ns => get_paths n ++ getPathsL ns

end

mutual

/-- Every node of a subtree, in pre-order (used to quantify over the
nodes an `apply`-style recursion visits). -/
def allNodes : PyNode → List PyNode
  | .mk fn ft m d p cs => .mk fn ft m d p cs :: allNodesL cs

def allNodesL : List PyNode → List PyNode
  | [] => []
  | n :: ns => allNodes n ++ allNodesL ns

end

/-! ## appliers.py: make_traversal

A traversal is the nested, path-keyed schema dict.  Each record is the
dict `appliers.make_traversal` writes: the seven metadata keys
(`foundType`, `descriptiveType`, `unique`, `default`, `description`,
`choices`, `regex`) plus the nested `"traversal"` dict.  A record's
metadata part is `Option RecMeta`: `Option.none` models a record whose
seven metadata keys are absent (the state `Filter.__call__` leaves
behind after `traversal[path].clear()`), `some` a record carrying them.
Dicts are association lists in insertion order, as in CPython. -/

/-- The seven metadata keys of a traversal record.  `found_type` holds
`node.foundType` — a type object — as a `PyVal`. -/
structure RecMeta where
  found_type : PyVal
  descriptiveType : PyVal
  unique : PyVal
  default : PyVal
  description : PyVal
  choices : PyVal
  regex : PyVal
  deriving DecidableEq, Repr

/-- The record `make_traversal` creates for an unignored node. -/
def RecMeta.ofNode (ft : PyType) (m : MetaBlock) : RecMeta :=
  ⟨.type ft, m.descriptiveType, m.unique, m.default, m.description, m.choices, m.regex⟩

inductive Trav where
  | mk (entries : List (String × Option RecMeta × Trav))

abbrev TEntry := String × Option RecMeta × Trav

def Trav.entries : Trav → List TEntry
  | .mk es => es

def emptyTrav : Trav := .mk []

/-- `path in void` at one nesting level. -/
def containsKeyE : List TEntry → String → Bool
  | [], _ => false
  | (k, _, _) :: rest, key => k == key || containsKeyE rest key

/-- `void[path]["traversal"]` (the key is present when used). -/
def getSubE : List TEntry → String → Trav
  | [], _ => emptyTrav
  | (k, _, s) :: rest, key => if k == key then s else getSubE rest key

/-- Writing back `void[path]["traversal"]` (first occurrence of the
key, which is unique in a dict). -/
def setSubE : List TEntry → String → Trav → List TEntry
  | [], _, _ => []
  | (k, m, s) :: rest, key, ns =>
    if k == key then (k, m, ns) :: rest else (k, m, s) :: setSubE rest key ns

mutual

/-- One step of `appliers.make_traversal`'s `recur(node, void)` for an
unignored node: generalize the node's path; if that key is absent,
append a fresh record carrying the node's discovered type and metadata
and an empty nested dict; then recurse every child into the record's
`"traversal"` dict.  (The `node.ignore` branch is dead here; see the
header.) -/
def mtNode : PyNode → Trav → Trav
  | .mk _ ft m _ p _cs, .mk es =>
    let key := generalize p
    let es1 := if containsKeyE es key then es
               else es ++ [(key, some (RecMeta.ofNode ft m), emptyTrav)]
    .mk (setSubE es1 key (mtList _cs (getSubE es1 key)))

/-- The `for children in node.children: recur(children, ...)` loop:
children are folded left to right into the shared nested dict. -/
def mtList : List PyNode → Trav → Trav
  | [], t => t
  | n :: ns, t => mtList ns (mtNode n t)

end

/-- `appliers.make_traversal(node)` / `Node.export_traversal`: run
`recur` on an empty dict and return the produced traversal. -/
def make_traversal (n : PyNode) : Trav := mtNode n emptyTrav

mutual

/-- `helpers.flatten(traversal, keys_only=True)` and, identically,
`Model.get_paths`: every key reachable by recursively walking the
traversal (as a list; Python returns the set). -/
def flatKeys : Trav → List String
  | .mk es => flatKeysE es

def flatKeysE : List TEntry → List String
  | [] => []
  | (k, _, s) :: rest => k :: (flatKeys s ++ flatKeysE rest)

end

/-! ## models.py: Model

`Model.traversal` is a single traversal dict; `process_files` builds a
`Tree` per file, exports its traversal and merges it in with
`full_traversal.update(traversal)`. -/

/-- First-occurrence association-list lookup (CPython dict lookup). -/
def lookupE : List TEntry → String → Option (Option RecMeta × Trav)
  | [], _ => Option.none
  | (k, m, s) :: rest, key => if k == key then some (m, s) else lookupE rest key

def lookupT (t : Trav) (key : String) : Option (Option RecMeta × Trav) :=
  lookupE t.entries key

/-- `dict.update(incoming)`: existing keys keep their position but get
the incoming value; keys new to the dict are appended in incoming
order. -/
def updateE (es incoming : List TEntry) : List TEntry :=
  (es.map (fun e => match lookupE incoming e.1 with
    | some (m, s) => (e.1, m, s)
    | Option.none => e)) ++
  incoming.filter (fun e => !(containsKeyE es e.1))

/-- The merge step of `Model.process_files`:
`full_traversal.update(traversal)`.  (File loading and the DeepDiff
change-log entry are elided; the diff is audit-only.) -/
def travUpdate : Trav → Trav → Trav
  | .mk es, .mk inc => .mk (updateE es inc)

/-- `Model.process_files(apply=True)` restricted to its merge effect:
fold the per-file traversals into the model's traversal with
`dict.update`. -/
def process_files (model : Trav) (traversals : List Trav) : Trav :=
  traversals.foldl travUpdate model

mutual

/-- The generator inside `Model.find_info`: walk the traversal depth
first, pre-order, yielding every record whose key equals the target
(`if path == target: yield info`; the unconditional `if info:` recursion
then descends into the record's nested dict). -/
def findL : List TEntry → String → List (Option RecMeta × Trav)
  | [], _ => []
  | (k, m, s) :: rest, target =>
    (if k == target then [(m, s)] else []) ++ (findT s target ++ findL rest target)

def findT : Trav → String → List (Option RecMeta × Trav)
  | .mk es, target => findL es target

end

/-- `Model.find_info(target)`: `next(recur(target, self.traversal))` —
the first yielded record, or an uncaught `StopIteration` when the
generator is exhausted (the bare `next` has no default). -/
def find_info (t : Trav) (target : String) : Except PyErr (Option RecMeta × Trav) :=
  match findT t target with
  | [] => .error .stopIteration
  | r :: _ => .ok r

/-- The metadata keys `set_attribute` can address (`info[attr] = value`
for the record's named fields; arbitrary brand-new keys are not
modelled — no claim exercises them). -/
inductive MetaField where
  | found_type
  | descriptiveType
  | unique
  | default
  | description
  | choices
  | regex
  deriving DecidableEq, Repr

def RecMeta.setField (r : RecMeta) : MetaField × PyVal → RecMeta
  | (.found_type, v) => { r with found_type := v }
  | (.descriptiveType, v) => { r with descriptiveType := v }
  | (.unique, v) => { r with unique := v }
  | (.default, v) => { r with default := v }
  | (.description, v) => { r with description := v }
  | (.choices, v) => { r with choices := v }
  | (.regex, v) => { r with regex := v }

/-- `for attr, value in kwargs.items(): info[attr] = value`. -/
def applyPatch (r : RecMeta) (patch : List (MetaField × PyVal)) : RecMeta :=
  patch.foldl RecMeta.setField r

/-- `info[attr] = value` on a record.  On a record whose metadata keys
were cleared the assignments would re-create exactly the assigned keys;
that partial-dict state is approximated by patching a fresh all-`None`
record (dead code for every theorem below). -/
def patchRec : Option RecMeta → List (MetaField × PyVal) → Option RecMeta
  | some r, p => some (applyPatch r p)
  | Option.none, [] => Option.none
  | Option.none, p => some (applyPatch ⟨.none, .none, .none, .none, .none, .none, .none⟩ p)

mutual

/-- The in-place effect of mutating the record `find_info` returned:
patch the first record, in the same depth-first pre-order `find_info`
uses, whose key equals the target; `Option.none` when no key matches. -/
def setAttrL : List TEntry → String → List (MetaField × PyVal) → Option (List TEntry)
  | [], _, _ => Option.none
  | (k, m, s) :: rest, target, patch =>
    if k == target then some ((k, patchRec m patch, s) :: rest)
    else match setAttrT s target patch with
      | some s' => some ((k, m, s') :: rest)
      | Option.none =>
        match setAttrL rest target patch with
        | some rest' => some ((k, m, s) :: rest')
        | Option.none => Option.none

def setAttrT : Trav → String → List (MetaField × PyVal) → Option Trav
  | .mk es, target, patch =>
    match setAttrL es target patch with
    | some es' => some (.mk es')
    | Option.none => Option.none

end

/-- `Model.set_attribute(path, **kwargs)`: `info = self.find_info(path)`
— which raises `StopIteration` when the path is absent — then, `info`
being a nonempty dict, write each keyword field through it and return
`True`.  (The `return False` branch is unreachable: `find_info` never
returns a falsy value.) -/
def set_attribute (t : Trav) (target : String) (patch : List (MetaField × PyVal)) :
    Except PyErr (Bool × Trav) :=
  match find_info t target with
  | .error e => .error e
  | .ok _ => .ok (true, (setAttrT t target patch).getD t)

mutual

/-- The generator inside `helpers.flatten(traversal, keys_only=False)`:
yield, for each record, its full-path key with the seven metadata
fields (`info["foundType"]`, …); accessing them on a record whose
metadata keys are absent raises `KeyError`.  Yields are in depth-first
pre-order. -/
def flatFullT : Trav → Except PyErr (List (String × RecMeta))
  | .mk es => flatFullE es

def flatFullE : List TEntry → Except PyErr (List (String × RecMeta))
  | [] => .ok []
  | (k, m, s) :: rest =>
    match m with
    | some r =>
      match flatFullT s with
      | .error e => .error e
      | .ok inner =>
        match flatFullE rest with
        | .error e => .error e
        | .ok outer => .ok ((k, r) :: (inner ++ outer))
    | Option.none => .error .keyError

end

/-- The `ret.update(r)` accumulation of `flatten(..., keys_only=False)`
makes the last yield for a key win; `lookupFlat` reproduces that
last-wins dict lookup on the yielded list. -/
def lookupFlat (l : List (String × RecMeta)) (k : String) : Option RecMeta :=
  l.foldl (fun acc e => if e.1 == k then some e.2 else acc) Option.none

/-- `Model.flatten()` = `helpers.flatten(self.traversal, keys_only=False)`. -/
def model_flatten (t : Trav) : Except PyErr (List (String × RecMeta)) :=
  flatFullT t

mutual

/-- The recursion of `Model.__call__` (and, identically,
`applies.apply_model`): for each node, `info = flat[path]` — raising
`KeyError` when the generalized path has no entry — then overwrite the
node's six metadata attributes from the record, then recurse into the
children.  (Python mutates in place; the embedding returns the updated
tree, erroring where Python raises.) -/
def applyN (flat : List (String × RecMeta)) : PyNode → Except PyErr PyNode
  | .mk fn ft _ d p cs =>
    match lookupFlat flat (generalize p) with
    | Option.none => .error .keyError
    | some info =>
      match applyL flat cs with
      | .error e => .error e
      | .ok cs' =>
        .ok (.mk fn ft
          ⟨info.descriptiveType, info.unique, info.default,
           info.description, info.choices, info.regex⟩ d p cs')

def applyL (flat : List (String × RecMeta)) : List PyNode → Except PyErr (List PyNode)
  | [] => .ok []
  | n :: ns =>
    match applyN flat n with
    | .error e => .error e
    | .ok n' =>
      match applyL flat ns with
      | .error e => .error e
      | .ok ns' => .ok (n' :: ns')

end

/-- `model(tree)` / `apply_model(tree, rec=True, model)`: flatten the
model, then push the records onto every node by generalized path. -/
def apply_model (t : Trav) (n : PyNode) : Except PyErr PyNode :=
  match model_flatten t with
  | .error e => .error e
  | .ok flat => applyN flat n

/-! ## filters.py -/

/-- The keys of `LIST_OP` (the supported operator suffixes). -/
def LIST_OP_KEYS : List String :=
  ["exact", "not", "gt", "gte", "lt", "lte", "contains",
   "startswith", "endswith", "isnull", "regex"]

/-- `LIST_ATTRIBUTES` (known base attributes; unknown ones only warn). -/
def LIST_ATTRIBUTES : List String :=
  ["path", "data", "foundType", "descriptiveType", "unique"]

/-- `ATTRIBUTES_VS_OP`: per-attribute operator allow-lists, all empty.
Subscripting it with an attribute outside its keys raises `KeyError`. -/
def ATTRIBUTES_VS_OP : List (String × List String) :=
  [("path", []), ("data", []), ("foundType", []),
   ("descriptiveType", []), ("unique", [])]

/-- `filters.parse_op(string)`: split on `"__"` (a count other than two
parts fails the unpacking with `ValueError`); warn — only — on an
unknown attribute; raise `ValueError` on an unknown operator; then
evaluate `ATTRIBUTES_VS_OP[attribute]`, which raises `KeyError` for an
attribute outside the five known ones, and whose (always empty)
allow-list otherwise vacuously passes.  Returns the attribute and the
operator name (standing for the looked-up operator function). -/
def parse_op (s : String) : Except PyErr (String × String) :=
  match s.splitOn "__" with
  | [attrName, op] =>
    if ¬ LIST_OP_KEYS.contains op then .error .valueError
    else
      match ATTRIBUTES_VS_OP.lookup attrName with
      | Option.none => .error .keyError
      | some allowed =>
        if allowed ≠ [] ∧ ¬ allowed.contains op then .error .valueError
        else .ok (attrName, op)
  | _ => .error .valueError

/-- Operator names, standing for the `LIST_OP` functions. -/
inductive OpName where
  | exact | notEq | gt | gte | lt | lte | containsOp
  | startswith | endswith | isnull | regexOp
  deriving DecidableEq, Repr

/-- Python truthiness of the modelled values (`isnull` is `not a`). -/
def pyTruthy : PyVal → Bool
  | .none => false
  | .na => true
  | .bool b => b
  | .int n => !(n == 0)
  | .str s => !(s == "")
  | .type _ => true

/-- `str(a)` for the modelled values. -/
def pyStr : PyVal → String
  | .none => "None"
  | .na => "N/A"
  | .bool b => if b then "True" else "False"
  | .int n => toString n
  | .str s => s
  | .type .root => "RootNode"
  | .type t =>
    match t with
    | .noneT => "NoneType" | .boolT => "bool" | .intT => "int"
    | .strT => "str" | .listT => "list" | .dictT => "dict" | .root => "RootNode"

/-- The `LIST_OP` functions on modelled values.  `exact`/`not` are
Python `==`/`!=` (the numeric `1 == True` coercion is not modelled);
the order operators are defined on int-int and str-str pairs and no
claim exercises them elsewhere (Python would raise `TypeError`);
`contains` is membership/substring on strings; `regex` (an arbitrary
`re.match`) is not modelled and no claim exercises it. -/
def opEval : OpName → PyVal → PyVal → Bool
  | .exact, a, b => a == b
  | .notEq, a, b => !(a == b)
  | .gt, .int a, .int b => decide (a > b)
  | .gt, .str a, .str b => decide (a > b)
  | .gt, _, _ => false
  | .gte, .int a, .int b => decide (a ≥ b)
  | .gte, .str a, .str b => decide (a ≥ b)
  | .gte, _, _ => false
  | .lt, .int a, .int b => decide (a < b)
  | .lt, .str a, .str b => decide (a < b)
  | .lt, _, _ => false
  | .lte, .int a, .int b => decide (a ≤ b)
  | .lte, .str a, .str b => decide (a ≤ b)
  | .lte, _, _ => false
  | .containsOp, .str a, .str b => decide (b.data <:+: a.data)
  | .containsOp, _, _ => false
  | .startswith, a, b => (pyStr a).startsWith (pyStr b)
  | .endswith, a, b => (pyStr a).endsWith (pyStr b)
  | .isnull, a, _ => !pyTruthy a
  | .regexOp, _, _ => false

/-- One parsed filter triple `(attribute, operator, value)`. -/
structure Filtr where
  attr : String
  op : OpName
  value : PyVal
  deriving DecidableEq, Repr

/-- `attr in traversal[path]` and `traversal[path][attr]` on a record:
`Option.none` when the key is absent — always the case once the record's
metadata keys were cleared, and for attributes outside the seven
metadata keys.  (The `"traversal"` key itself as a filter attribute is
not modelled; no claim uses it.) -/
def getRecAttr (m : Option RecMeta) (attr : String) : Option PyVal :=
  match m with
  | Option.none => Option.none
  | some r =>
    if attr == "foundType" then some r.found_type
    else if attr == "descriptiveType" then some r.descriptiveType
    else if attr == "unique" then some r.unique
    else if attr == "default" then some r.default
    else if attr == "description" then some r.description
    else if attr == "choices" then some r.choices
    else if attr == "regex" then some r.regex
    else Option.none

/-- The `for filtr in self.filters` loop of `Filter.__call__`'s Model
branch, for one record at key `k` with current metadata `m` and nested
dict `s` (already recursed into).  A failing predicate with
`keep_paths=True` either clears the record's metadata, keeping the
nested dict (`traversal[path].clear(); traversal[path]["traversal"] =
temp`), when that dict is nonempty — or deletes the whole entry
(`del traversal[path]`), after which ANY further filter iteration
re-subscripts `traversal[path]` and raises `KeyError`.  With
`keep_paths=False` the body is `pass  # TODO`: nothing happens.
Result: `some` the surviving record, `Option.none` for a deleted
entry. -/
def foldFilters (keepPaths : Bool) :
    List Filtr → String → Option RecMeta → Trav → Except PyErr (Option (Option RecMeta × Trav))
  | [], _, m, s => .ok (some (m, s))
  | f :: fs, k, m, s =>
    let failed :=
      if f.attr == "path" then !opEval f.op (.str k) f.value
      else
        match getRecAttr m f.attr with
        | some v => !opEval f.op v f.value
        | Option.none => false
    if failed then
      if keepPaths then
        if !s.entries.isEmpty then foldFilters keepPaths fs k Option.none s
        else if fs.isEmpty then .ok Option.none
        else .error .keyError
      else foldFilters keepPaths fs k m s
    else foldFilters keepPaths fs k m s

mutual

/-- The `rec(traversal)` recursion of `Filter.__call__`'s Model branch:
for each key at this level — nested dict first — skip the root key
`"$"` when `keep_root`, skip keys outside `self.targets` (plain string
membership, not pattern matching) when targets are set, else run the
filter loop, keeping, clearing or deleting the entry. -/
def fTrav (fl : List Filtr) (targets : List String) (keepPaths keepRoot : Bool) :
    Trav → Except PyErr Trav
  | .mk es =>
    match fEntries fl targets keepPaths keepRoot es with
    | .error e => .error e
    | .ok es' => .ok (.mk es')

def fEntries (fl : List Filtr) (targets : List String) (keepPaths keepRoot : Bool) :
    List TEntry → Except PyErr (List TEntry)
  | [] => .ok []
  | (k, m, s) :: rest =>
    match (if !s.entries.isEmpty then fTrav fl targets keepPaths keepRoot s else Except.ok s) with
    | .error e => .error e
    | .ok s' =>
      if k == "$" && keepRoot then
        match fEntries fl targets keepPaths keepRoot rest with
        | .error e => .error e
        | .ok rest' => .ok ((k, m, s') :: rest')
      else if !targets.isEmpty && !targets.contains k then
        match fEntries fl targets keepPaths keepRoot rest with
        | .error e => .error e
        | .ok rest' => .ok ((k, m, s') :: rest')
      else
        match foldFilters keepPaths fl k m s' with
        | .error e => .error e
        | .ok (some (m', s'')) =>
          match fEntries fl targets keepPaths keepRoot rest with
          | .error e => .error e
          | .ok rest' => .ok ((k, m', s'') :: rest')
        | .ok Option.none => fEntries fl targets keepPaths keepRoot rest

end

/-- The Model branch of `Filter.__call__`: iterate the model's
top-level mapping as `{source: traversal}` pairs — the shape this
branch's own code expects — skipping sources outside `self.filenames`,
and run `rec` on each kept traversal.  (A Model whose `traversal` is
the bare result of `process_files` would instead crash in `rec`; claim
C5 is settled on this branch's own per-source reading, and its failure
is independent of that choice.) -/
def filter_call_model (fl : List Filtr) (targets : List String) (filenames : List String)
    (keepPaths keepRoot : Bool) :
    List (String × Trav) → Except PyErr (List (String × Trav))
  | [] => .ok []
  | (fn, t) :: rest =>
    if !filenames.isEmpty && !filenames.contains fn then
      match filter_call_model fl targets filenames keepPaths keepRoot rest with
      | .error e => .error e
      | .ok rest' => .ok ((fn, t) :: rest')
    else
      match fTrav fl targets keepPaths keepRoot t with
      | .error e => .error e
      | .ok t' =>
        match filter_call_model fl targets filenames keepPaths keepRoot rest with
        | .error e => .error e
        | .ok rest' => .ok ((fn, t') :: rest')

/-! ## nodes.py: Node.delete -/

/-- The argument Python's `list.pop` receives. -/
inductive PopArg (α : Type) where
  | idx (i : Int)
  | obj (x : α)

/-- Python `list.pop`: an integer index (negative allowed) pops that
element, raising `IndexError` out of range; any non-integer argument —
such as the `Node` passed by `Node.delete` — raises `TypeError`
(`'...' object cannot be interpreted as an integer`). -/
def listPop {α : Type} (l : List α) : PopArg α → Except PyErr (α × List α)
  | .idx i =>
    let j := if i < 0 then i + l.length else i
    if h : 0 ≤ j ∧ j.toNat < l.length then
      .ok (l.get ⟨j.toNat, h.2⟩, l.eraseIdx j.toNat)
    else .error .indexError
  | .obj _ => .error .typeError

/-- A `Node` field name as `_set_path` receives it: a string, or the
`uuid.uuid4()` object the soft-delete placeholder is given. -/
inductive PyFieldName where
  | str (s : String)
  | uuid4

/-- `_set_path`'s child-name step: `REGEX_PATH.match(self.fieldName)`
then `.` prefixing.  `re.match` on a `uuid.UUID` raises `TypeError`
(`expected string or bytes-like object`). -/
def fieldNameFrag : PyFieldName → Except PyErr String
  | .str s => .ok (if idxMatch s.data then s else "." ++ s)
  | .uuid4 => .error .typeError

/-- `Node.delete(rec=False, remove)` for a non-root node, acting on the
parent's child list.  `remove=True` (hard): `self.parent.children.pop(self)`.
`remove=False` (soft): build `Node(None, fieldName=uuid.uuid4(),
parent=self.parent)` — whose `_set_path` already raises — then give it
the children, append it, and pop `self`.  (With `rec=True` the method
first calls `delete` on every child, each of which raises the same
way.) -/
def node_delete (parentPath : String) (parentChildren : List PyNode) (self : PyNode)
    (remove : Bool) : Except PyErr (List PyNode) :=
  if remove then
    match listPop parentChildren (.obj self) with
    | .error e => .error e
    | .ok r => .ok r.2
  else
    match fieldNameFrag .uuid4 with
    | .error e => .error e
    | .ok frag =>
      -- unreachable: `fieldNameFrag .uuid4` always raises; the string
      -- below stands for the unrepresentable uuid field name.
      let blank : PyNode :=
        .mk "uuid4" .noneT .init (some .null) (parentPath ++ frag) self.children
      match listPop (parentChildren ++ [blank]) (.obj self) with
      | .error e => .error e
      | .ok r => .ok r.2


/-! ## Concrete input documents used by the claim theorems -/

/-- The spec's scenario document `{"a": [{"id": 1}, {"id": 2}]}`. -/
def doc1 : JSON := .obj [("a", .arr [.obj [("id", .intV 1)], .obj [("id", .intV 2)]])]

/-- The spec's second scenario document `{"a": [{"id": 3, "note": "x"}]}`. -/
def doc2 : JSON := .obj [("a", .arr [.obj [("id", .intV 3), ("note", .strV "x")]])]

/-- A document `{"b": 1}` whose path set a recursive merge would keep. -/
def docB : JSON := .obj [("b", .intV 1)]

/-- A document shaped like the spec's filter scenario target
`$.users[*].id`. -/
def docUsers : JSON := .obj [("users", .arr [.obj [("id", .intV 7), ("name", .strV "n")]])]

/-! ## Lemmas about path generalization (claim C8) -/

theorem isDigit_ne_lbracket {c : Char} (h : c.isDigit = true) : ¬ (c = '[') := by
  intro e; subst e; simp [Char.isDigit] at h

theorem head?_genSub : ∀ l : List Char, (genSub l).head? = l.head?
  | [] => by simp [genSub]
  | c :: rest => by
    rw [genSub]
    split <;> rename_i h
    · obtain ⟨h1, -, -⟩ := h
      subst h1; simp
    · simp

theorem genSub_digits : ∀ (ds l : List Char), (∀ c ∈ ds, c.isDigit = true) →
    genSub (ds ++ l) = ds ++ genSub l
  | [], l, _ => by simp
  | d :: ds, l, h => by
    have hd : d.isDigit = true := h d (by simp)
    have hne : ¬ (d = '[') := isDigit_ne_lbracket hd
    rw [List.cons_append, genSub]
    split <;> rename_i hc
    · exact absurd hc.1 hne
    · rw [genSub_digits ds l (fun c hc => h c (by simp [hc]))]
      simp

theorem takeWhile_eq_nil_of_head {p : Char → Bool} : ∀ {l : List Char},
    (∀ c, l.head? = some c → p c = false) → l.takeWhile p = []
  | [], _ => rfl
  | c :: rest, h => by
    have := h c rfl
    simp [List.takeWhile_cons, this]

theorem takeWhile_app_digits {p : Char → Bool} : ∀ (ds l : List Char),
    (∀ c ∈ ds, p c = true) → (∀ c, l.head? = some c → p c = false) →
    (ds ++ l).takeWhile p = ds ∧ (ds ++ l).dropWhile p = l
  | [], l, _, hl => ⟨takeWhile_eq_nil_of_head hl, by
      cases l with
      | nil => rfl
      | cons c rest => have := hl c rfl; simp [List.dropWhile_cons, this]⟩
  | d :: ds, l, hds, hl => by
    have hd : p d = true := hds d (by simp)
    have ih := takeWhile_app_digits ds l (fun c hc => hds c (by simp [hc])) hl
    simp [List.takeWhile_cons, List.dropWhile_cons, hd, ih.1, ih.2]

theorem head_not_of_takeWhile_nil {p : Char → Bool} : ∀ {l : List Char},
    l.takeWhile p = [] → ∀ c, l.head? = some c → p c = false
  | [], _, c, hc => by simp at hc
  | x :: xs, h, c, hc => by
    have hx : x = c := by simpa using hc
    subst hx
    by_cases hp : p x = true
    · rw [List.takeWhile_cons, if_pos hp] at h
      simp at h
    · simpa using hp

theorem genSub_idem : ∀ l : List Char, genSub (genSub l) = genSub l := by
  have main : ∀ n (l : List Char), l.length ≤ n → genSub (genSub l) = genSub l := by
    intro n
    induction n with
    | zero =>
      intro l hl
      have : l = [] := List.eq_nil_of_length_eq_zero (Nat.le_zero.mp hl)
      subst this; simp [genSub]
    | succ n ih =>
      intro l hl
      match l with
      | [] => simp [genSub]
      | c :: rest =>
        rw [genSub]
        split <;> rename_i h
        · -- matched: output is '[' :: '*' :: ']' :: genSub rest3
          set rest3 := (rest.dropWhile Char.isDigit).tail with hrest3
          have hlen : rest3.length ≤ n := by
            have h1 : (rest.dropWhile Char.isDigit).length ≤ rest.length :=
              (List.dropWhile_sublist Char.isDigit).length_le
            have h2 : rest3.length = (rest.dropWhile Char.isDigit).length - 1 :=
              List.length_tail _
            simp only [List.length_cons] at hl
            omega
          have ihr := ih rest3 hlen
          rw [genSub]
          split <;> rename_i h2
          · exfalso
            rcases h2 with ⟨-, h2b, -⟩
            simp [List.takeWhile_cons, Char.isDigit] at h2b
          · rw [genSub]
            split <;> rename_i h3
            · exact absurd h3.1 (by decide)
            · rw [genSub]
              split <;> rename_i h4
              · exact absurd h4.1 (by decide)
              · rw [ihr]
        · -- unmatched: output is c :: genSub rest
          have hlen : rest.length ≤ n := by
            simp only [List.length_cons] at hl; omega
          have ihr := ih rest hlen
          rw [genSub]
          split <;> rename_i h2
          · exfalso
            apply h
            obtain ⟨h2a, h2b, h2c⟩ := h2
            refine ⟨h2a, ?_, ?_⟩
            · -- rest.takeWhile isDigit ≠ []
              intro hnil
              have hhead : ∀ c, rest.head? = some c → Char.isDigit c = false :=
                head_not_of_takeWhile_nil hnil
              have : (genSub rest).takeWhile Char.isDigit = [] := by
                apply takeWhile_eq_nil_of_head
                intro d hd
                rw [head?_genSub] at hd
                exact hhead d hd
              exact h2b this
            · -- (rest.dropWhile isDigit).head? = some ']'
              -- decompose rest = ds ++ l2
              have hds : ∀ c ∈ rest.takeWhile Char.isDigit, Char.isDigit c = true :=
                fun c hc => List.mem_takeWhile_imp hc
              have hl2 : ∀ c, (rest.dropWhile Char.isDigit).head? = some c →
                  Char.isDigit c = false := by
                intro d hd
                have := List.head?_dropWhile_not Char.isDigit rest
                rw [hd] at this
                exact this
              have hsplit := List.takeWhile_append_dropWhile Char.isDigit rest
              have hgen : genSub rest =
                  rest.takeWhile Char.isDigit ++ genSub (rest.dropWhile Char.isDigit) := by
                conv_lhs => rw [← hsplit]
                exact genSub_digits _ _ hds
              have happ := takeWhile_app_digits (rest.takeWhile Char.isDigit)
                (genSub (rest.dropWhile Char.isDigit)) hds
                (by intro d hd; rw [head?_genSub] at hd; exact hl2 d hd)
              rw [hgen] at h2c
              rw [happ.2] at h2c
              rw [head?_genSub] at h2c
              exact h2c
          · rw [ihr]
  intro l
  exact main l.length l le_rfl

/-! ## Lemmas about pattern matching (claim C7) -/

theorem searchTokens_starFree : ∀ (p : List Char), '*' ∉ p → searchTokens p = p.map Tok.lit
  | [], _ => rfl
  | c :: cs, h => by
    have hc : ¬ (c = '*') := fun e => h (by simp [e])
    simp only [searchTokens, List.map_cons, if_neg hc]
    have ih := searchTokens_starFree cs (fun hm => h (by simp [hm]))
    simpa [searchTokens] using ih

theorem reMatch_lits : ∀ (p s : List Char), reMatch (p.map Tok.lit) s = true ↔ s = p
  | [], [] => by simp [reMatch]
  | [], x :: xs => by simp [reMatch]
  | c :: cs, [] => by simp [reMatch]
  | c :: cs, x :: xs => by
    rw [List.map_cons, reMatch]
    simp only [Bool.and_eq_true, decide_eq_true_eq]
    rw [reMatch_lits cs xs]
    constructor
    · rintro ⟨h1, h2⟩; simp [h1, h2]
    · intro h; injection h with h1 h2; exact ⟨h1.symm, h2⟩

theorem reMatch_lits_append : ∀ (p : List Char) (ts : List Tok) (s : List Char),
    reMatch (p.map Tok.lit ++ ts) s = true ↔ ∃ s', s = p ++ s' ∧ reMatch ts s' = true
  | [], ts, s => by simp
  | c :: cs, ts, [] => by
    rw [List.map_cons, List.cons_append, reMatch]
    simp
  | c :: cs, ts, x :: xs => by
    rw [List.map_cons, List.cons_append, reMatch]
    simp only [Bool.and_eq_true, decide_eq_true_eq]
    rw [reMatch_lits_append cs ts xs]
    constructor
    · rintro ⟨h1, s', h2, h3⟩
      exact ⟨s', by simp [h1, h2], h3⟩
    · rintro ⟨s', h1, h2⟩
      injection h1 with h1a h1b
      exact ⟨h1a.symm, s', h1b, h2⟩

theorem reMatch_star : ∀ (ts : List Tok) (s : List Char),
    reMatch (Tok.star :: ts) s = true ↔ ∃ u v, s = u ++ v ∧ reMatch ts v = true
  | ts, [] => by
    rw [reMatch]
    constructor
    · intro h; exact ⟨[], [], rfl, h⟩
    · rintro ⟨u, v, h1, h2⟩
      rw [eq_comm, List.append_eq_nil] at h1
      obtain ⟨hu, hv⟩ := h1
      subst hu; subst hv; exact h2
  | ts, x :: xs => by
    rw [reMatch]
    simp only [Bool.or_eq_true]
    constructor
    · rintro (h | h)
      · exact ⟨[], x :: xs, rfl, h⟩
      · obtain ⟨u, v, h1, h2⟩ := (reMatch_star ts xs).mp h
        exact ⟨x :: u, v, by simp [h1], h2⟩
    · rintro ⟨u, v, h1, h2⟩
      cases u with
      | nil =>
        left
        have hv : v = x :: xs := by simpa using h1.symm
        subst hv; exact h2
      | cons y u' =>
        right
        injection h1 with h1a h1b
        exact (reMatch_star ts xs).mpr ⟨u', v, h1b, h2⟩

theorem reMatch_one_star (p₁ p₂ s : List Char) (h1 : '*' ∉ p₁) (h2 : '*' ∉ p₂) :
    reMatch (searchTokens (p₁ ++ '*' :: p₂)) s = true ↔ ∃ mid, s = p₁ ++ mid ++ p₂ := by
  have htok : searchTokens (p₁ ++ '*' :: p₂) =
      p₁.map Tok.lit ++ Tok.star :: p₂.map Tok.lit := by
    simp only [searchTokens, List.map_append, List.map_cons, if_pos rfl]
    rw [← searchTokens_starFree p₁ h1, ← searchTokens_starFree p₂ h2]
    rfl
  rw [htok, reMatch_lits_append]
  constructor
  · rintro ⟨s', hs, hm⟩
    obtain ⟨u, v, huv, hv⟩ := (reMatch_star _ _).mp hm
    have hvp : v = p₂ := (reMatch_lits p₂ v).mp hv
    subst hvp
    exact ⟨u, by simp [hs, huv]⟩
  · rintro ⟨mid, hs⟩
    refine ⟨mid ++ p₂, by simpa using hs, ?_⟩
    exact (reMatch_star _ _).mpr ⟨mid, p₂, rfl, (reMatch_lits p₂ p₂).mpr rfl⟩

/-! ## Lemmas about make_traversal and get_paths (claim C1) -/

theorem flatKeysE_append : ∀ (a b : List TEntry), flatKeysE (a ++ b) = flatKeysE a ++ flatKeysE b
  | [], b => by simp [flatKeysE]
  | (k, m, s) :: rest, b => by
    simp [flatKeysE, flatKeysE_append rest b]

theorem mem_of_containsKeyE : ∀ (es : List TEntry) (k : String),
    containsKeyE es k = true → k ∈ flatKeysE es
  | [], k, h => by simp [containsKeyE] at h
  | (k', m, s) :: rest, k, h => by
    rw [containsKeyE] at h
    simp only [Bool.or_eq_true, beq_iff_eq] at h
    rcases h with h | h
    · subst h; simp [flatKeysE]
    · have := mem_of_containsKeyE rest k h
      simp [flatKeysE, this]

theorem containsKeyE_append (a b : List TEntry) (k : String) :
    containsKeyE (a ++ b) k = (containsKeyE a k || containsKeyE b k) := by
  induction a with
  | nil => simp [containsKeyE]
  | cons e rest ih =>
    obtain ⟨k', m, s⟩ := e
    simp [containsKeyE, ih, Bool.or_assoc]

theorem getSubE_append_of_not_contains : ∀ (es : List TEntry) (key : String)
    (m : Option RecMeta) (s : Trav), containsKeyE es key = false →
    getSubE (es ++ [(key, m, s)]) key = s
  | [], key, m, s, _ => by simp [getSubE]
  | (k', m', s') :: rest, key, m, s, h => by
    rw [containsKeyE] at h
    simp only [Bool.or_eq_false_iff, beq_eq_false_iff_ne, ne_eq] at h
    rw [List.cons_append, getSubE, if_neg (by simpa using h.1)]
    exact getSubE_append_of_not_contains rest key m s h.2

theorem mem_flatKeysE_setSubE : ∀ (es : List TEntry) (key : String) (C : String → Prop)
    (ns : Trav),
    containsKeyE es key = true →
    (∀ y, y ∈ flatKeys ns ↔ y ∈ flatKeys (getSubE es key) ∨ C y) →
    ∀ x, x ∈ flatKeysE (setSubE es key ns) ↔ x ∈ flatKeysE es ∨ C x
  | [], key, C, ns, h, _, x => by simp [containsKeyE] at h
  | (k, m, s) :: rest, key, C, ns, h, hns, x => by
    by_cases hk : k = key
    · subst hk
      rw [setSubE, if_pos (by simp)]
      have hget : getSubE ((k, m, s) :: rest) k = s := by rw [getSubE, if_pos (by simp)]
      rw [hget] at hns
      simp only [flatKeysE, List.mem_cons, List.mem_append]
      rw [hns x]
      tauto
    · rw [setSubE, if_neg (by simpa using hk)]
      rw [containsKeyE] at h
      simp only [Bool.or_eq_true, beq_iff_eq] at h
      rcases h with h | h
      · exact absurd h hk
      · have hget : getSubE ((k, m, s) :: rest) key = getSubE rest key := by
          rw [getSubE, if_neg (by simpa using hk)]
        rw [hget] at hns
        have ih := mem_flatKeysE_setSubE rest key C ns h hns x
        simp only [flatKeysE, List.mem_cons, List.mem_append]
        rw [ih]
        tauto

mutual

theorem mem_flatKeys_mtNode : ∀ (n : PyNode) (t : Trav) (x : String),
    x ∈ flatKeys (mtNode n t) ↔ x ∈ flatKeys t ∨ x ∈ get_paths n
  | .mk fn ft m d p cs, .mk es, x => by
    rw [mtNode]
    by_cases hc : containsKeyE es (generalize p) = true
    · rw [if_pos hc]
      have hkey := mem_of_containsKeyE es (generalize p) hc
      have h := mem_flatKeysE_setSubE es (generalize p) (fun y => y ∈ getPathsL cs)
        (mtList cs (getSubE es (generalize p))) hc
        (fun y => mem_flatKeys_mtList cs (getSubE es (generalize p)) y) x
      show x ∈ flatKeysE _ ↔ _
      rw [h]
      simp only [flatKeys, get_paths, List.mem_cons]
      constructor
      · rintro (h1 | h1)
        · exact Or.inl h1
        · exact Or.inr (Or.inr h1)
      · rintro (h1 | h1 | h1)
        · exact Or.inl h1
        · subst h1; exact Or.inl hkey
        · exact Or.inr h1
    · rw [if_neg hc]
      have hcf : containsKeyE es (generalize p) = false := by
        simpa using hc
      have hc' : containsKeyE (es ++ [(generalize p, some (RecMeta.ofNode ft m), emptyTrav)])
          (generalize p) = true := by
        rw [containsKeyE_append]
        simp [containsKeyE]
      have hget : getSubE (es ++ [(generalize p, some (RecMeta.ofNode ft m), emptyTrav)])
          (generalize p) = emptyTrav :=
        getSubE_append_of_not_contains es (generalize p) _ _ hcf
      have h := mem_flatKeysE_setSubE
        (es ++ [(generalize p, some (RecMeta.ofNode ft m), emptyTrav)]) (generalize p)
        (fun y => y ∈ getPathsL cs)
        (mtList cs (getSubE (es ++ [(generalize p, some (RecMeta.ofNode ft m), emptyTrav)])
          (generalize p))) hc'
        (fun y => mem_flatKeys_mtList cs _ y) x
      show x ∈ flatKeysE _ ↔ _
      rw [h, flatKeysE_append]
      simp only [flatKeys, get_paths, flatKeysE, emptyTrav, List.mem_append, List.mem_cons,
        List.append_nil, List.not_mem_nil, List.mem_singleton, or_false, false_or]
      tauto

theorem mem_flatKeys_mtList : ∀ (ns : List PyNode) (t : Trav) (x : String),
    x ∈ flatKeys (mtList ns t) ↔ x ∈ flatKeys t ∨ x ∈ getPathsL ns
  | [], t, x => by simp [mtList, getPathsL]
  | n :: ns, t, x => by
    rw [mtList]
    rw [mem_flatKeys_mtList ns (mtNode n t) x]
    rw [mem_flatKeys_mtNode n t x]
    simp only [getPathsL, List.mem_append]
    tauto

end



theorem flatKeys_make_traversal_toFinset (d : JSON) :
    (flatKeys (make_traversal (buildTree d))).toFinset = (get_paths (buildTree d)).toFinset := by
  ext x
  simp only [List.mem_toFinset, make_traversal]
  rw [mem_flatKeys_mtNode]
  simp [flatKeys, flatKeysE, emptyTrav]

/-! ## Lemmas about the dict.update merge (claim C2) -/

theorem lookupE_append : ∀ (a b : List TEntry) (k : String),
    lookupE (a ++ b) k =
      match lookupE a k with
      | some v => some v
      | Option.none => lookupE b k
  | [], b, k => by simp [lookupE]
  | (k', m, s) :: rest, b, k => by
    by_cases hk : k' = k
    · subst hk; simp [lookupE]
    · rw [List.cons_append, lookupE, lookupE, if_neg (by simpa using hk),
        if_neg (by simpa using hk)]
      exact lookupE_append rest b k

theorem lookupE_map_upd (inc : List TEntry) : ∀ (es : List TEntry) (k : String),
    lookupE (es.map (fun e => match lookupE inc e.1 with
      | some (m, s) => (e.1, m, s)
      | Option.none => e)) k =
      match lookupE es k with
      | some (m, s) =>
        some (match lookupE inc k with
              | some v => v
              | Option.none => (m, s))
      | Option.none => Option.none
  | [], k => by simp [lookupE]
  | (k', m, s) :: rest, k => by
    by_cases hk : k' = k
    · subst hk
      cases hinc : lookupE inc k' with
      | none => simp [lookupE, hinc]
      | some v =>
        obtain ⟨mv, sv⟩ := v
        simp [lookupE, hinc]
    · cases hinc : lookupE inc k' with
      | none =>
        simp only [List.map_cons, hinc]
        rw [lookupE, if_neg (by simpa using hk), lookupE, if_neg (by simpa using hk)]
        exact lookupE_map_upd inc rest k
      | some v =>
        obtain ⟨mv, sv⟩ := v
        simp only [List.map_cons, hinc]
        rw [lookupE, if_neg (by simpa using hk), lookupE, if_neg (by simpa using hk)]
        exact lookupE_map_upd inc rest k

theorem lookupE_filter_not_contains (es : List TEntry) : ∀ (inc : List TEntry) (k : String),
    containsKeyE es k = false →
    lookupE (inc.filter (fun e => !(containsKeyE es e.1))) k = lookupE inc k
  | [], k, _ => by simp [lookupE]
  | (k', m, s) :: rest, k, h => by
    by_cases hk : k' = k
    · subst hk
      simp [List.filter_cons, h, lookupE]
    · simp only [List.filter_cons]
      by_cases hkeep : containsKeyE es k' = true
      · simp only [hkeep, Bool.not_true, Bool.false_eq_true, if_false]
        rw [lookupE, if_neg (by simpa using hk)]
        exact lookupE_filter_not_contains es rest k h
      · simp only [Bool.not_eq_true] at hkeep
        simp only [hkeep, Bool.not_false, if_true]
        rw [lookupE, if_neg (by simpa using hk), lookupE, if_neg (by simpa using hk)]
        exact lookupE_filter_not_contains es rest k h

theorem containsKeyE_iff_lookupE : ∀ (es : List TEntry) (k : String),
    containsKeyE es k = (lookupE es k).isSome
  | [], k => by simp [containsKeyE, lookupE]
  | (k', m, s) :: rest, k => by
    by_cases hk : k' = k
    · subst hk; simp [containsKeyE, lookupE]
    · have hbeq : (k' == k) = false := by simpa using hk
      rw [containsKeyE, lookupE, if_neg (by simpa using hk), hbeq]
      rw [Bool.false_or]
      exact containsKeyE_iff_lookupE rest k

theorem lookupT_travUpdate (t u : Trav) (k : String) :
    lookupT (travUpdate t u) k =
      match lookupT u k with
      | some v => some v
      | Option.none => lookupT t k := by
  obtain ⟨es⟩ := t
  obtain ⟨inc⟩ := u
  show lookupE (updateE es inc) k = _
  rw [updateE, lookupE_append, lookupE_map_upd inc es k]
  cases hes : lookupE es k with
  | some v =>
    obtain ⟨mv, sv⟩ := v
    cases hinc : lookupE inc k with
    | some w => simp [lookupT, Trav.entries, hinc]
    | none => simp [lookupT, Trav.entries, hinc, hes]
  | none =>
    have hcf : containsKeyE es k = false := by
      rw [containsKeyE_iff_lookupE, hes]; rfl
    rw [lookupE_filter_not_contains es inc k hcf]
    cases hinc : lookupE inc k with
    | some w => simp [lookupT, Trav.entries, hinc]
    | none => simp [lookupT, Trav.entries, hinc, hes]

/-! ## Lemmas about applying a Model to a tree (claim C4) -/

mutual

theorem applyN_isOk : ∀ (flat : List (String × RecMeta)) (n : PyNode),
    (applyN flat n).isOk = true ↔ ∀ x ∈ get_paths n, (lookupFlat flat x).isSome = true
  | flat, .mk fn ft m d p cs => by
    rw [applyN]
    cases hl : lookupFlat flat (generalize p) with
    | none =>
      simp only [Except.isOk, Except.toBool]
      constructor
      · intro h; cases h
      · intro h
        have := h (generalize p) (by simp [get_paths])
        rw [hl] at this
        cases this
    | some info =>
      cases ha : applyL flat cs with
      | error e =>
        simp only [Except.isOk, Except.toBool]
        constructor
        · intro h; cases h
        · intro h
          have : (applyL flat cs).isOk = true := by
            rw [applyL_isOk]
            intro x hx
            exact h x (by simp [get_paths, hx])
          rw [ha] at this
          cases this
      | ok cs' =>
        simp only [Except.isOk, Except.toBool]
        constructor
        · intro _
          intro x hx
          rw [get_paths] at hx
          rcases List.mem_cons.mp hx with h1 | h1
          · subst h1; rw [hl]; rfl
          · have : (applyL flat cs).isOk = true := by rw [ha]; rfl
            rw [applyL_isOk] at this
            exact this x h1
        · intro _; trivial

theorem applyL_isOk : ∀ (flat : List (String × RecMeta)) (ns : List PyNode),
    (applyL flat ns).isOk = true ↔ ∀ x ∈ getPathsL ns, (lookupFlat flat x).isSome = true
  | flat, [] => by simp [applyL, getPathsL, Except.isOk, Except.toBool]
  | flat, n :: ns => by
    rw [applyL]
    cases hn : applyN flat n with
    | error e =>
      simp only [Except.isOk, Except.toBool]
      constructor
      · intro h; cases h
      · intro h
        have : (applyN flat n).isOk = true := by
          rw [applyN_isOk]
          intro x hx
          exact h x (by simp [getPathsL, hx])
        rw [hn] at this
        cases this
    | ok n' =>
      cases hns : applyL flat ns with
      | error e =>
        simp only [Except.isOk, Except.toBool]
        constructor
        · intro h; cases h
        · intro h
          have : (applyL flat ns).isOk = true := by
            rw [applyL_isOk]
            intro x hx
            exact h x (by simp [getPathsL, hx])
          rw [hns] at this
          cases this
      | ok ns' =>
        simp only [Except.isOk, Except.toBool]
        constructor
        · intro _
          intro x hx
          rw [getPathsL] at hx
          rcases List.mem_append.mp hx with h1 | h1
          · have : (applyN flat n).isOk = true := by rw [hn]; rfl
            rw [applyN_isOk] at this
            exact this x h1
          · have : (applyL flat ns).isOk = true := by rw [hns]; rfl
            rw [applyL_isOk] at this
            exact this x h1
        · intro _; trivial

end

/-! ## Lemmas about the Filter Model branch (claim C5) -/

theorem foldFilters_hard : ∀ (fl : List Filtr) (k : String) (m : Option RecMeta) (s : Trav),
    foldFilters false fl k m s = .ok (some (m, s))
  | [], k, m, s => by rw [foldFilters]
  | f :: fs, k, m, s => by
    rw [foldFilters]
    have ih := foldFilters_hard fs k m s
    split
    · split
      · rw [if_neg Bool.false_ne_true]
        exact ih
      · exact ih
    · split
      · split
        · rename_i hff
          exact absurd hff Bool.false_ne_true
        · exact ih
      · exact ih

mutual

theorem fTrav_hard : ∀ (fl : List Filtr) (targets : List String) (kr : Bool) (t : Trav),
    fTrav fl targets false kr t = .ok t
  | fl, targets, kr, .mk es => by
    rw [fTrav, fEntries_hard fl targets kr es]

theorem fEntries_hard : ∀ (fl : List Filtr) (targets : List String) (kr : Bool)
    (es : List TEntry), fEntries fl targets false kr es = .ok es
  | fl, targets, kr, [] => by rw [fEntries]
  | fl, targets, kr, (k, m, s) :: rest => by
    rw [fEntries]
    have hs : (if !s.entries.isEmpty then fTrav fl targets false kr s else Except.ok s) =
        Except.ok s := by
      split
      · exact fTrav_hard fl targets kr s
      · rfl
    rw [hs]
    simp only []
    split
    · rw [fEntries_hard fl targets kr rest]
    · split
      · rw [fEntries_hard fl targets kr rest]
      · rw [foldFilters_hard fl k m s, fEntries_hard fl targets kr rest]

end

/-! ## Lemmas about discovered types (claim C10) -/

theorem typeOf_ne_root : ∀ d : JSON, typeOf d ≠ .root := by
  intro d h
  cases d <;> simp [typeOf] at h

mutual

theorem foundTypeFor_root_iff (fn : String) (d : JSON) :
    foundTypeFor fn (typeOf d) = .root ↔ fn = "$" := by
  rw [foundTypeFor]
  split <;> rename_i hfn
  · simp [hfn]
  · simp only [hfn, iff_false]
    exact typeOf_ne_root d

theorem buildNode_root_iff : ∀ (d : JSON) (fn : String) (pp : Option String),
    ∀ n' ∈ allNodes (buildNode d fn pp),
      (n'.foundType = .root ↔ n'.fieldName = "$")
  | .obj members, fn, pp, n', hmem => by
    rw [buildNode, allNodes] at hmem
    rcases List.mem_cons.mp hmem with h | h
    · subst h
      simp only [PyNode.foundType, PyNode.fieldName]
      exact foundTypeFor_root_iff fn (.obj members)
    · exact buildObj_root_iff members _ n' h
  | .arr elems, fn, pp, n', hmem => by
    rw [buildNode, allNodes] at hmem
    rcases List.mem_cons.mp hmem with h | h
    · subst h
      simp only [PyNode.foundType, PyNode.fieldName]
      exact foundTypeFor_root_iff fn (.arr elems)
    · exact buildArr_root_iff elems 0 _ n' h
  | .null, fn, pp, n', hmem => by
    rw [buildNode, allNodes] at hmem
    · rcases List.mem_cons.mp hmem with h | h
      · subst h
        simp only [PyNode.foundType, PyNode.fieldName]
        exact foundTypeFor_root_iff fn .null
      · simp [allNodesL] at h
    · intro _ heq; cases heq
    · intro _ heq; cases heq
  | .boolV b, fn, pp, n', hmem => by
    rw [buildNode, allNodes] at hmem
    · rcases List.mem_cons.mp hmem with h | h
      · subst h
        simp only [PyNode.foundType, PyNode.fieldName]
        exact foundTypeFor_root_iff fn (.boolV b)
      · simp [allNodesL] at h
    · intro _ heq; cases heq
    · intro _ heq; cases heq
  | .intV n, fn, pp, n', hmem => by
    rw [buildNode, allNodes] at hmem
    · rcases List.mem_cons.mp hmem with h | h
      · subst h
        simp only [PyNode.foundType, PyNode.fieldName]
        exact foundTypeFor_root_iff fn (.intV n)
      · simp [allNodesL] at h
    · intro _ heq; cases heq
    · intro _ heq; cases heq
  | .strV s, fn, pp, n', hmem => by
    rw [buildNode, allNodes] at hmem
    · rcases List.mem_cons.mp hmem with h | h
      · subst h
        simp only [PyNode.foundType, PyNode.fieldName]
        exact foundTypeFor_root_iff fn (.strV s)
      · simp [allNodesL] at h
    · intro _ heq; cases heq
    · intro _ heq; cases heq

theorem buildObj_root_iff : ∀ (ms : List (String × JSON)) (pp : String),
    ∀ n' ∈ allNodesL (buildObj ms pp),
      (n'.foundType = .root ↔ n'.fieldName = "$")
  | [], pp, n', h => by simp [buildObj, allNodesL] at h
  | (k, v) :: rest, pp, n', h => by
    rw [buildObj, allNodesL] at h
    rcases List.mem_append.mp h with h1 | h1
    · exact buildNode_root_iff v k (some pp) n' h1
    · exact buildObj_root_iff rest pp n' h1

theorem buildArr_root_iff : ∀ (els : List JSON) (i : Nat) (pp : String),
    ∀ n' ∈ allNodesL (buildArr els i pp),
      (n'.foundType = .root ↔ n'.fieldName = "$")
  | [], i, pp, n', h => by simp [buildArr, allNodesL] at h
  | v :: rest, i, pp, n', h => by
    rw [buildArr, allNodesL] at h
    rcases List.mem_append.mp h with h1 | h1
    · exact buildNode_root_iff v _ (some pp) n' h1
    · exact buildArr_root_iff rest (i + 1) pp n' h1

end


/-! ## Claim theorems -/

/-- C1: for every Instance Tree built from a JSON value (no node marked
ignored), the set of keys reachable by recursively walking the Traversal
produced by `make_traversal` / `export_traversal` equals the tree's own
set of generalized paths as returned by `get_paths()`. -/
theorem c1_traversal_keys_eq_get_paths (d : JSON) :
    (flatKeys (make_traversal (buildTree d))).toFinset =
      (get_paths (buildTree d)).toFinset :=
  flatKeys_make_traversal_toFinset d

unseal genSub in
/-- C2 (counterexample): merging is NOT a recursive merge of existing
keys' sub-mappings.  A Model that knows the document `{"b": 1}` has the
path `$.b`; merging the traversal of `{"a": [{"id": 3, "note": "x"}]}`
replaces the whole record under the shared top-level key `$`, and `$.b`
disappears — under the claimed recursive merge it would survive. -/
theorem c2_update_not_recursive_merge :
    "$.b" ∈ flatKeys (make_traversal (buildTree docB)) ∧
    "$.b" ∉ flatKeys (process_files (make_traversal (buildTree docB))
      [make_traversal (buildTree doc2)]) := by
  constructor <;> decide

unseal genSub in
/-- C2 (amended): `process_files` merges with a shallow `dict.update`:
a key of the incoming traversal replaces the whole existing value,
other existing keys are kept, and new keys are added — characterized by
top-level lookup.  On the spec's scenario the observable facts still
hold: after absorbing `{"a": [{"id": 1}, {"id": 2}]}` and merging
`{"a": [{"id": 3, "note": "x"}]}`, the path `$.a[*].note` is new, and
`find_info` returns for `$.a[*].id` a record equal, field by field, to
the one before the merge (discovered type `int`, all metadata null) —
because the incoming replacement happens to carry the same values, not
because the old record is preserved. -/
theorem c2_amended_shallow_update :
    (∀ (t u : Trav) (k : String),
      lookupT (travUpdate t u) k =
        match lookupT u k with
        | some v => some v
        | Option.none => lookupT t k) ∧
    "$.a[*].note" ∉ flatKeys (make_traversal (buildTree doc1)) ∧
    "$.a[*].note" ∈ flatKeys (process_files (make_traversal (buildTree doc1))
      [make_traversal (buildTree doc2)]) ∧
    find_info (process_files (make_traversal (buildTree doc1))
      [make_traversal (buildTree doc2)]) "$.a[*].id" =
      find_info (make_traversal (buildTree doc1)) "$.a[*].id" :=
  ⟨fun t u k => lookupT_travUpdate t u k, by decide, by decide, rfl⟩

unseal genSub in
/-- C3 (the code, evaluated at the failing input): `find_info` on a
path absent from the Model raises `StopIteration` (the bare `next()`
has no default), and `set_attribute` on that path propagates the same
exception instead of returning `False`.  On a present path,
`set_attribute` returns `True` and overwrites exactly the named
metadata field, leaving the others untouched. -/
theorem c3_lookup_miss_raises :
    find_info (make_traversal (buildTree doc1)) "$.zzz" = .error .stopIteration ∧
    set_attribute (make_traversal (buildTree doc1)) "$.zzz"
      [(.description, .str "d")] = .error .stopIteration ∧
    (set_attribute (make_traversal (buildTree doc1)) "$.a[*].id"
        [(.description, .str "user id")]).map
      (fun r => (r.1, (find_info r.2 "$.a[*].id").map (fun rec => rec.1))) =
    .ok (true, .ok (some ⟨.type .intT, .none, .none, .none, .str "user id",
      .none, .none⟩)) :=
  ⟨rfl, rfl, rfl⟩

unseal genSub in
/-- C4 (counterexample): applying a Model to a tree with a node whose
generalized path has no entry in the flattened mapping raises
`KeyError` (`info = flat[path]`), it does not complete with null
metadata.  Here the Model knows `{"a": 1}` and the tree contains the
extra member `"b"`. -/
theorem c4_apply_model_missing_path_raises :
    apply_model (make_traversal (buildTree (.obj [("a", .intV 1)])))
      (buildTree (.obj [("a", .intV 1), ("b", .intV 2)])) = .error .keyError :=
  rfl

/-- C4 (amended): the recursion of `Model.__call__` / `apply_model`
completes if and only if every node's generalized path has an entry in
the flattened mapping; a missing entry raises `KeyError` at that
node. -/
theorem c4_amended_apply_ok_iff_all_paths_known
    (flat : List (String × RecMeta)) (n : PyNode) :
    (applyN flat n).isOk = true ↔
      ∀ x ∈ get_paths n, (lookupFlat flat x).isSome = true :=
  applyN_isOk flat n

unseal genSub in
/-- C5 (the code, evaluated): hard deletion (`keep_paths=False`) in
`Filter.__call__`'s Model branch is an unimplemented `pass  # TODO`:
the recursion returns every traversal unchanged — in particular on the
spec's scenario (predicate `unique__exact=True`, target
`$.users[*].id`), where the claim says the matched subtree is
removed. -/
theorem c5_hard_delete_is_noop :
    (∀ (fl : List Filtr) (targets : List String) (kr : Bool) (t : Trav),
      fTrav fl targets false kr t = .ok t) ∧
    fTrav [⟨"unique", .exact, .bool true⟩] ["$.users[*].id"] false true
        (make_traversal (buildTree docUsers)) =
      .ok (make_traversal (buildTree docUsers)) :=
  ⟨fun fl targets kr t => fTrav_hard fl targets kr t, rfl⟩

unseal String.splitOnAux in
/-- C6 (the code, evaluated at the failing input): `parse_op` raises
`KeyError` — not just a warning — on an unknown attribute with a
supported operator, because line 70 subscripts `ATTRIBUTES_VS_OP` with
the attribute; an unknown operator raises `ValueError` as claimed, and
a known attribute with a known operator is accepted. -/
theorem c6_unknown_attribute_raises :
    parse_op "myattr__exact" = .error .keyError ∧
    parse_op "unique__zzz" = .error .valueError ∧
    parse_op "unique__exact" = .ok ("unique", "exact") := by
  refine ⟨by decide, by decide, by decide⟩

unseal genSub reMatch in
/-- C7 (counterexample): the wildcard of a compiled pattern does not
match exactly one segment.  The matcher compiled from `$.a[*].b`
accepts `$.a[3].x[0].b`, whose generalization `$.a[*].x[*].b` differs
from the pattern — the `*` (compiled to `.*`) swallowed `3].x[0`,
spanning two bracketed segments. -/
theorem c7_star_spans_segments :
    regexSearchMatch "$.a[*].b" "$.a[3].x[0].b" = true ∧
    generalize "$.a[3].x[0].b" ≠ "$.a[*].b" :=
  ⟨rfl, by decide⟩

unseal reMatch in
/-- C7 (amended): a compiled pattern is anchored at both ends and its
non-`*` characters (the escaped `$ . [ ]` and regex-ordinary
characters) match literally, but `*` is compiled to `.*` and matches an
arbitrary — possibly empty, possibly multi-segment — run of
characters: for a pattern `p₁*p₂` with literal `p₁, p₂`, a string
matches iff it is `p₁ ++ mid ++ p₂` for some `mid`.  The spec's two
examples hold: `$.a[*].b` accepts `$.a[3].b` and rejects `$.a.b`. -/
theorem c7_amended_star_matches_any_run :
    (∀ (p₁ p₂ s : List Char), '*' ∉ p₁ → '*' ∉ p₂ →
      (reMatch (searchTokens (p₁ ++ '*' :: p₂)) s = true ↔
        ∃ mid, s = p₁ ++ mid ++ p₂)) ∧
    regexSearchMatch "$.a[*].b" "$.a[3].b" = true ∧
    regexSearchMatch "$.a[*].b" "$.a.b" = false :=
  ⟨fun p₁ p₂ s h1 h2 => reMatch_one_star p₁ p₂ s h1 h2, rfl, rfl⟩

/-- Witness for the amended C7: instantiating the characterization at
pattern `$.a[*].b` and path `$.a[3].b`, with both hypotheses
discharged on the concrete literals. -/
theorem c7_amended_witness :
    ('*' ∉ "$.a[".data) ∧ ('*' ∉ "].b".data) ∧
    (reMatch (searchTokens ("$.a[".data ++ '*' :: "].b".data)) "$.a[3].b".data = true ↔
      ∃ mid, "$.a[3].b".data = "$.a[".data ++ mid ++ "].b".data) :=
  ⟨by decide, by decide,
    c7_amended_star_matches_any_run.1 "$.a[".data "].b".data "$.a[3].b".data
      (by decide) (by decide)⟩

unseal genSub in
/-- C8: path generalization (`REGEX_PATH.sub("[*]", ·)`) is idempotent
on every string, and `generalize "$.a[7].b[2]" = "$.a[*].b[*]"`. -/
theorem c8_generalize_idempotent :
    (∀ s : String, generalize (generalize s) = generalize s) ∧
    generalize "$.a[7].b[2]" = "$.a[*].b[*]" :=
  ⟨fun s => congrArg (fun l => String.mk l) (genSub_idem s.data), rfl⟩

unseal genSub in
/-- C9 (the code, evaluated at the failing input): for the tree built
from `{"a": 1}` and its child `$.a`, both deletion policies raise
`TypeError` — hard delete passes the node object to `list.pop`, which
requires an integer index, and soft delete dies even earlier, inside
`Node.__init__` of the placeholder, where `_set_path` calls `re.match`
on the `uuid.uuid4()` field name. -/
theorem c9_delete_raises_typeerror :
    node_delete "$" (buildTree (.obj [("a", .intV 1)])).children
      (buildNode (.intV 1) "a" (some "$")) true = .error .typeError ∧
    node_delete "$" (buildTree (.obj [("a", .intV 1)])).children
      (buildNode (.intV 1) "a" (some "$")) false = .error .typeError :=
  ⟨rfl, rfl⟩

/-- C10: a node's discovered type is the `Root` sentinel exactly when
its field name is `"$"`, at every position of every built tree; in
particular, for the document `{"$": 1}` the child node for the member
named `"$"` gets `Root` instead of `int`. -/
theorem c10_root_type_iff_dollar_name :
    (∀ (d : JSON) (fn : String) (pp : Option String),
      ∀ n' ∈ allNodes (buildNode d fn pp),
        (PyNode.foundType n' = .root ↔ PyNode.fieldName n' = "$")) ∧
    (buildNode (.obj [("$", .intV 1)]) "$" Option.none).children.map
      PyNode.foundType = [.root] :=
  ⟨fun d fn pp n' h => buildNode_root_iff d fn pp n' h, rfl⟩

/-- Witness for C10: the characterization applied to the member node
for `"$"` in the tree of `{"$": 1}`, with the membership hypothesis
discharged concretely. -/
theorem c10_witness :
    (PyNode.foundType (buildNode (.intV 1) "$" (some "$")) = .root ↔
      PyNode.fieldName (buildNode (.intV 1) "$" (some "$")) = "$") :=
  c10_root_type_iff_dollar_name.1 (.obj [("$", .intV 1)]) "$" Option.none
    (buildNode (.intV 1) "$" (some "$"))
    (List.Mem.tail _ (List.Mem.head _))
